import Mathlib

/-!
# dockerfile-optimizer: entrypoint dependency resolver

A shallow embedding of `src/docker.go`.

* Go strings are Lean `String`s; the regular-expression engine reads them as
  sequences of runes (`List Char`), byte-level operations (`len`, slicing)
  read their UTF-8 encoding.
* The three regular expressions of the program are written as syntax trees
  (`Regex`) and run by a small backtracking matcher with Go's leftmost-first
  semantics (earlier alternatives first, repetitions greedy).
* The operating system is a parameter: `look` is the outcome of
  `exec.LookPath`, `sh` the outcome of running `$SHELL -c "which <name>"`,
  `ldd` the outcome of running `ldd <path>`.
* The package-level accumulators `commands` and `cmdFullPaths` are threaded
  explicitly through the functions that read and write them.
-/

namespace DockerfileOptimizer

/-! ## Regular expressions -/

/-- ASCII word character, the class `\w` that Go's `\b` is defined by. -/
def isWordChar (c : Char) : Bool :=
  ('0' ≤ c && c ≤ '9') || ('A' ≤ c && c ≤ 'Z') || ('a' ≤ c && c ≤ 'z') || c == '_'

/-- The fragment of regular-expression syntax used by `docker.go`. Repetition
is applied to single-character classes only, as in all of its patterns. -/
inductive Regex where
  /-- a character class, given by its membership test -/
  | cls (p : Char → Bool)
  /-- greedy bounded repetition `c{lo,hi}` of a class; `hi = none` is unbounded -/
  | rep (p : Char → Bool) (lo : Nat) (hi : Option Nat)
  /-- the assertion `\b` -/
  | wordBoundary
  /-- the assertion `^` (no multi-line flag: beginning of text) -/
  | beginText
  /-- the assertion `$` (no multi-line flag: end of text) -/
  | endText
  /-- concatenation -/
  | seq (a b : Regex)
  /-- alternation, left alternative preferred -/
  | alt (a b : Regex)

/-- A position in the text: the rune just before it (if any) and the runes
from it onwards. -/
abbrev Pos := Option Char × List Char

/-- Holds when `\b` holds between `prev` and the first rune of `rest`. -/
def atWordBoundary (prev : Option Char) (rest : List Char) : Bool :=
  (match prev with | some c => isWordChar c | none => false) !=
  (match rest with | c :: _ => isWordChar c | [] => false)

/-- The positions at which a greedy repetition of the class `p` can stop,
longest first. -/
def repEnds (p : Char → Bool) : Nat → Option Nat → Option Char → List Char → List Pos
  | lo, _, prev, [] => if lo = 0 then [(prev, [])] else []
  | lo, hi, prev, c :: cs =>
    (if p c && hi != some 0 then repEnds p (lo - 1) (hi.map (· - 1)) (some c) cs else [])
      ++ (if lo = 0 then [(prev, c :: cs)] else [])

/-- All positions at which a match of `re` starting at the given position can
end, in the order a backtracking matcher tries them. -/
def Regex.ends : Regex → Pos → List Pos
  | .cls p, (_, c :: cs) => if p c then [(some c, cs)] else []
  | .cls _, (_, []) => []
  | .rep p lo hi, (prev, s) => repEnds p lo hi prev s
  | .wordBoundary, (prev, s) => if atWordBoundary prev s then [(prev, s)] else []
  | .beginText, (prev, s) => if prev.isNone then [(prev, s)] else []
  | .endText, (prev, s) => if s.isEmpty then [(prev, s)] else []
  | .seq a b, st => (a.ends st).flatMap b.ends
  | .alt a b, st => a.ends st ++ b.ends st

/-- The leftmost-first match of `re` starting exactly at the given position:
the number of runes it spans. -/
def Regex.matchLen (re : Regex) (prev : Option Char) (s : List Char) : Option Nat :=
  ((re.ends (prev, s)).head?).map fun e => s.length - e.2.length

/-- Go's `(*Regexp).MatchString`, on the text after `prev`: is there a match
starting at some position. -/
def Regex.matchFrom (re : Regex) : Option Char → List Char → Bool
  | prev, [] => (re.matchLen prev []).isSome
  | prev, c :: cs => (re.matchLen prev (c :: cs)).isSome || re.matchFrom (some c) cs

/-- Go's `(*Regexp).MatchString`. -/
def Regex.MatchString (re : Regex) (s : String) : Bool :=
  re.matchFrom none s.data

/-- The loop of Go's `(*Regexp).allMatches` on the text after `prev`. `skip`
counts the runes still covered by the last match; `prevEnd` tells that the
last match ended exactly here (an empty match is then not accepted). -/
def Regex.findAllFrom (re : Regex) : Option Char → List Char → Nat → Bool → List (List Char)
  | prev, [], skip, prevEnd =>
    if skip = 0 ∧ (re.matchLen prev []).isSome ∧ ¬ prevEnd then [[]] else []
  | prev, c :: cs, 0, prevEnd =>
    match re.matchLen prev (c :: cs) with
    | none => re.findAllFrom (some c) cs 0 false
    | some 0 => (if prevEnd then [] else [[]]) ++ re.findAllFrom (some c) cs 0 false
    | some (k + 1) => (c :: cs).take (k + 1) :: re.findAllFrom (some c) cs k (k == 0)
  | _, c :: cs, skip + 1, _ => re.findAllFrom (some c) cs skip (skip == 0)

/-- Go's `(*Regexp).FindAllString(s, -1)`: the successive non-overlapping
leftmost-first matches. -/
def Regex.FindAllString (re : Regex) (s : String) : List String :=
  (re.findAllFrom none s.data 0 false).map String.mk

/-- The class `[a-zA-Z_]`. -/
def identStart (c : Char) : Bool :=
  ('a' ≤ c && c ≤ 'z') || ('A' ≤ c && c ≤ 'Z') || c == '_'

/-- The class `[a-zA-Z0-9_]`. -/
def identChar (c : Char) : Bool :=
  ('a' ≤ c && c ≤ 'z') || ('A' ≤ c && c ≤ 'Z') || ('0' ≤ c && c ≤ '9') || c == '_'

/-- The class `[A-Z_]`. -/
def upperChar (c : Char) : Bool :=
  ('A' ≤ c && c ≤ 'Z') || c == '_'

/-- The pattern `^[A-Z_]+$` of `snakeCaseRegexp`. -/
def snakeCaseRegexp : Regex :=
  .seq .beginText (.seq (.rep upperChar 1 none) .endText)

/-- The pattern `\b(-{1,2}[a-zA-Z_][a-zA-Z0-9_]*|[a-zA-Z_][a-zA-Z0-9_]*)\b`
of `filterCommands`. -/
def wordRegexp : Regex :=
  .seq .wordBoundary
    (.seq
      (.alt
        (.seq (.rep (· == '-') 1 (some 2)) (.seq (.cls identStart) (.rep identChar 0 none)))
        (.seq (.cls identStart) (.rep identChar 0 none)))
      .wordBoundary)

/-- The pattern `\b(/[^ ]+)\b` of `lddFindLib`. -/
def libRegexp : Regex :=
  .seq .wordBoundary
    (.seq (.seq (.cls (· == '/')) (.rep (· != ' ') 1 none)) .wordBoundary)

/-! ## String helpers from Go's standard library -/

/-- Go's `unicode.IsSpace`. -/
def isSpace (c : Char) : Bool :=
  c == '\t' || c == '\n' || c == '\x0b' || c == '\x0c' || c == '\r' || c == ' ' ||
  c == '\u0085' || c == '\u00a0' || c == '\u1680' ||
  ('\u2000' ≤ c && c ≤ '\u200a') ||
  c == '\u2028' || c == '\u2029' || c == '\u202f' || c == '\u205f' || c == '\u3000'

/-- Go's `strings.TrimSpace`. -/
def TrimSpace (s : String) : String :=
  ⟨((s.data.dropWhile isSpace).reverse.dropWhile isSpace).reverse⟩

/-- Go's `strings.HasPrefix`. -/
def HasPrefix (s pre : String) : Bool :=
  pre.data.isPrefixOf s.data

/-- The bytes of a Go string. -/
def bytes (s : String) : List UInt8 :=
  s.toUTF8.data.toList

/-- Go's `s[i:]`; `none` is the run-time panic "slice bounds out of range". -/
def sliceFrom (s : String) (i : Int) : Option (List UInt8) :=
  if 0 ≤ i ∧ i ≤ ((bytes s).length : Int) then some ((bytes s).drop i.toNat) else none

/-! ## The program -/

/-- The package-level list `shellBuiltins`. -/
def shellBuiltins : List String :=
  ["exit", "return", "set", "unset", "export",
   "if", "then", "else", "elif", "fi",
   "gt", "lt", "ge", "le", "eq", "ne",
   "case", "esac", "for", "select", "while",
   "until", "do", "done", "in", "function",
   "time",
   "\x7b", "\x7d", "[[", "]]",
   "!", "|", "&", ";", "="]

/-- The closure `isShellScript` of `main`: `entrypoint[len(entrypoint)-3:] == ".sh"`. -/
def isShellScript (entrypoint : String) : Option Bool :=
  (sliceFrom entrypoint (((bytes entrypoint).length : Int) - 3)).map (· == bytes ".sh")

/-- The closure `isBinary` of `main`: `entrypoint[len(entrypoint)-3:] != ".sh"`. -/
def isBinary (entrypoint : String) : Option Bool :=
  (sliceFrom entrypoint (((bytes entrypoint).length : Int) - 3)).map (· != bytes ".sh")

/-- The function `contains`. -/
def contains : List String → String → Bool
  | [], _ => false
  | a :: slice, item =>
    if a == item || snakeCaseRegexp.MatchString item then true else contains slice item

/-- One iteration of the loop over `matches` in `filterCommands`; `look m`
tells whether `exec.LookPath(m)` succeeds. -/
def filterStep (look : String → Bool) (commands : List String) (m : String) : List String :=
  if contains shellBuiltins m || HasPrefix m "-" then commands
  else if !look m then commands
  else if !contains commands m then commands ++ [m]
  else commands

/-- The function `filterCommands`, on the accumulator `commands`. -/
def filterCommands (look : String → Bool) (commands : List String) (line : String) :
    List String :=
  (wordRegexp.FindAllString line).foldl (filterStep look) commands

/-- The function `getCommandFullPath`; `sh command` is the output of
`$SHELL -c "which <command>"`, `none` when it fails. -/
def getCommandFullPath (sh : String → Option String) (command : String) : Option String :=
  (sh command).map TrimSpace

/-- One iteration of the loop `for _, command := range commands` of `main`. -/
def resolveStep (sh : String → Option String) (cmdFullPaths : List String)
    (command : String) : List String :=
  match getCommandFullPath sh command with
  | none => cmdFullPaths
  | some cmdFullPath =>
    if !contains cmdFullPaths cmdFullPath then cmdFullPaths ++ [cmdFullPath]
    else cmdFullPaths

/-- The loop `for _, command := range commands` of `main` (both branches). -/
def resolveLoop (sh : String → Option String) (commands cmdFullPaths : List String) :
    List String :=
  commands.foldl (resolveStep sh) cmdFullPaths

/-- The two package-level accumulators. -/
structure Accum where
  /-- the variable `commands` -/
  commands : List String
  /-- the variable `cmdFullPaths` -/
  cmdFullPaths : List String
  deriving DecidableEq, Repr

/-- One iteration of the loop `for scanner.Scan()` of `main`. -/
def scriptLine (look : String → Bool) (sh : String → Option String) (st : Accum)
    (line : String) : Accum :=
  let line := TrimSpace line
  if line == "" || HasPrefix line "#" then st
  else
    let commands := filterCommands look st.commands line
    { commands := commands, cmdFullPaths := resolveLoop sh commands st.cmdFullPaths }

/-- The loop `for scanner.Scan()` of `main`, over the lines of the script. -/
def scriptLoop (look : String → Bool) (sh : String → Option String) (lines : List String)
    (st : Accum) : Accum :=
  lines.foldl (scriptLine look sh) st

/-- The binary branch of `main`. -/
def binaryBranch (sh : String → Option String) (entrypoint0 : String) (st : Accum) : Accum :=
  let commands := st.commands ++ [entrypoint0]
  { commands := commands, cmdFullPaths := resolveLoop sh commands st.cmdFullPaths }

/-- The loop of `lddFindLib` with `libs` as accumulator; `ldd p` is the
outcome of running `ldd p`. -/
def lddFindLibLoop {ε : Type} (ldd : String → Except ε String) :
    List String → List String → Except ε (List String)
  | [], libs => .ok libs
  | cmdFullPath :: rest, libs =>
    match ldd cmdFullPath with
    | .error err => .error err
    | .ok out =>
      let lddOutput := TrimSpace out
      let found := libRegexp.FindAllString lddOutput
      lddFindLibLoop ldd rest (found.foldl (fun libs m => libs ++ [m]) libs)

/-- The function `lddFindLib`. -/
def lddFindLib {ε : Type} (ldd : String → Except ε String) (cmdFullPaths : List String) :
    Except ε (List String) :=
  lddFindLibLoop ldd cmdFullPaths []

/-! ## Specification-side predicates -/

/-- A token that consists entirely of upper-case letters and underscores. -/
def allUpperSnake (s : String) : Bool :=
  !s.data.isEmpty && s.data.all upperChar

/-- A token of `filterCommands` that passes the builtin, flag and search-path
filters. -/
def survives (look : String → Bool) (m : String) : Bool :=
  !(contains shellBuiltins m || HasPrefix m "-") && look m

/-- The tokens the script loop feeds to the filter: the matches of every line
that is not skipped, in order. -/
def scriptTokens (lines : List String) : List String :=
  lines.flatMap fun line =>
    if (TrimSpace line == "" || HasPrefix (TrimSpace line) "#") = true then []
    else wordRegexp.FindAllString (TrimSpace line)

/-! ## Fixtures -/

/-- Outcome of `which` on a system that has `curl` and `sh` only. -/
def whichCurlSh (command : String) : Option String :=
  if command = "curl" then some "/usr/bin/curl\n"
  else if command = "sh" then some "/bin/sh\n"
  else none

/-- Outcome of `ldd` on a system where every binary links against libc. -/
def lddLibc (_ : String) : Except Unit String :=
  .ok "\tlibc.so.6 => /lib/x86_64-linux-gnu/libc.so.6 (0x00007f)\n"

/-! ## Lemmas on the matcher -/

theorem repEnds_cons_none (p : Char → Bool) (lo : Nat) (prev : Option Char) (c : Char)
    (cs : List Char) :
    repEnds p lo none prev (c :: cs) =
      (if p c = true then repEnds p (lo - 1) none (some c) cs else [])
        ++ (if lo = 0 then [(prev, c :: cs)] else []) := by
  simp [repEnds]

theorem repEnds_reaches_end (p : Char → Bool) (s : List Char) :
    ∀ (lo : Nat) (prev : Option Char),
      (∃ q, (q, []) ∈ repEnds p lo none prev s) ↔ (∀ c ∈ s, p c = true) ∧ lo ≤ s.length := by
  induction s with
  | nil =>
    intro lo prev
    by_cases h : lo = 0 <;> simp [repEnds, h]
  | cons c cs ih =>
    intro lo prev
    have hcs := ih (lo - 1) (some c)
    rw [repEnds_cons_none]
    have hright : ∀ q, (q, ([] : List Char)) ∉ (if lo = 0 then [(prev, c :: cs)] else []) := by
      intro q; split <;> simp
    simp only [List.mem_append, hright, or_false]
    by_cases hp : p c = true
    · simp only [hp, if_true, hcs, List.mem_cons, forall_eq_or_imp, true_and, List.length_cons]
      constructor
      · rintro ⟨h1, h2⟩; exact ⟨h1, by omega⟩
      · rintro ⟨h1, h2⟩; exact ⟨h1, by omega⟩
    · simp [hp]

theorem snake_matchLen_some (c : Char) (s : List Char) :
    snakeCaseRegexp.matchLen (some c) s = none := by
  simp [Regex.matchLen, snakeCaseRegexp, Regex.ends]

theorem snake_matchFrom_some (s : List Char) :
    ∀ c : Char, snakeCaseRegexp.matchFrom (some c) s = false := by
  induction s with
  | nil => intro c; simp [Regex.matchFrom, snake_matchLen_some]
  | cons d ds ih => intro c; simp [Regex.matchFrom, snake_matchLen_some, ih]

theorem snake_matchLen_none (s : List Char) :
    (snakeCaseRegexp.matchLen none s).isSome = (!s.isEmpty && s.all upperChar) := by
  have h := repEnds_reaches_end upperChar s 1 none
  have key : (snakeCaseRegexp.matchLen none s).isSome = true ↔
      ∃ q, (q, []) ∈ repEnds upperChar 1 none none s := by
    simp only [Regex.matchLen, snakeCaseRegexp, Regex.ends, Option.isSome_map',
      Option.isNone_none, if_true, List.flatMap_cons, List.flatMap_nil, List.append_nil]
    rw [← Option.ne_none_iff_isSome, ne_eq, List.head?_eq_none_iff]
    constructor
    · intro hne
      obtain ⟨⟨q, r⟩, hmem⟩ := List.exists_mem_of_ne_nil _ hne
      simp only [List.mem_flatMap] at hmem
      obtain ⟨⟨q', r'⟩, hin, hend⟩ := hmem
      cases r' with
      | nil => exact ⟨q', hin⟩
      | cons _ _ => simp at hend
    · rintro ⟨q, hq⟩ hnil
      have : (q, ([] : List Char)) ∈
          (repEnds upperChar 1 none none s).flatMap (Regex.endText).ends := by
        simp only [List.mem_flatMap]
        exact ⟨(q, []), hq, by simp [Regex.ends]⟩
      simp only [Regex.ends] at this
      rw [hnil] at this
      simp at this
  rw [Bool.eq_iff_iff, key, h]
  cases s with
  | nil => simp
  | cons a as => simp

theorem snake_MatchString (s : String) :
    snakeCaseRegexp.MatchString s = allUpperSnake s := by
  unfold Regex.MatchString allUpperSnake
  cases h : s.data with
  | nil => simp [Regex.matchFrom, snake_matchLen_none]
  | cons c cs =>
    simp only [Regex.matchFrom, snake_matchFrom_some, Bool.or_false, snake_matchLen_none]

/-! ## Lemmas on `contains` and the loops -/

theorem contains_iff (slice : List String) (item : String) :
    contains slice item = true ↔
      (slice ≠ [] ∧ snakeCaseRegexp.MatchString item = true) ∨ item ∈ slice := by
  induction slice with
  | nil => simp [contains]
  | cons a slice ih =>
    by_cases hs : snakeCaseRegexp.MatchString item = true
    · simp [contains, hs]
    · by_cases ha : a = item
      · simp [contains, ha]
      · have hs' : snakeCaseRegexp.MatchString item = false := by simpa using hs
        have hstep : contains (a :: slice) item = contains slice item := by
          simp [contains, ha, hs']
        rw [hstep, ih]
        have ha' : ¬ item = a := fun h => ha h.symm
        simp [hs', ha']

theorem shellBuiltins_ne_nil : shellBuiltins ≠ [] := by
  simp [shellBuiltins]

theorem survives_spec (look : String → Bool) (m : String) (h : survives look m = true) :
    m ∉ shellBuiltins ∧ HasPrefix m "-" = false ∧ look m = true ∧
      snakeCaseRegexp.MatchString m = false := by
  simp only [survives, Bool.and_eq_true, Bool.not_eq_true', Bool.or_eq_false_iff] at h
  obtain ⟨⟨hc, hp⟩, hl⟩ := h
  have hc' : ¬ (contains shellBuiltins m = true) := by simp [hc]
  rw [contains_iff] at hc'
  push_neg at hc'
  refine ⟨hc'.2, hp, hl, ?_⟩
  have := hc'.1 shellBuiltins_ne_nil
  simpa using this

theorem filterStep_eq (look : String → Bool) (commands : List String) (m : String) :
    filterStep look commands m =
      if survives look m = true ∧ m ∉ commands then commands ++ [m] else commands := by
  by_cases hs : survives look m = true
  · obtain ⟨_, _, _, hsn⟩ := survives_spec look m hs
    have hc : contains commands m = true ↔ m ∈ commands := by
      rw [contains_iff]; simp [hsn]
    simp only [survives, Bool.and_eq_true, Bool.not_eq_true'] at hs
    by_cases hm : m ∈ commands
    · simp [filterStep, hs.1, hs.2, hc.2 hm, hm]
    · have : contains commands m = false := by
        rw [← Bool.not_eq_true]; exact fun h => hm (hc.1 h)
      simp [filterStep, hs.1, hs.2, this, hm, survives]
  · have hs' := hs
    simp only [survives, Bool.and_eq_true, Bool.not_eq_true', not_and, Bool.not_eq_true] at hs'
    by_cases h1 : (contains shellBuiltins m || HasPrefix m "-") = true
    · simp [filterStep, h1, hs]
    · have h1' : (contains shellBuiltins m || HasPrefix m "-") = false := by simpa using h1
      simp [filterStep, h1', hs' h1', hs]

theorem filterFold_append (look : String → Bool) (ms : List String) :
    ∀ acc : List String, ∃ added : List String,
      ms.foldl (filterStep look) acc = acc ++ added ∧
        ∀ x ∈ added, survives look x = true := by
  induction ms with
  | nil => intro acc; exact ⟨[], by simp⟩
  | cons m ms ih =>
    intro acc
    rw [List.foldl_cons, filterStep_eq]
    by_cases h : survives look m = true ∧ m ∉ acc
    · obtain ⟨added, heq, hall⟩ := ih (acc ++ [m])
      refine ⟨m :: added, ?_, ?_⟩
      · rw [if_pos h, heq]; simp
      · intro x hx
        rcases List.mem_cons.1 hx with rfl | hx
        · exact h.1
        · exact hall x hx
    · rw [if_neg h]; exact ih acc

theorem filterFold_nodup (look : String → Bool) (ms : List String) :
    ∀ acc : List String, acc.Nodup → (ms.foldl (filterStep look) acc).Nodup := by
  induction ms with
  | nil => intro acc h; exact h
  | cons m ms ih =>
    intro acc hacc
    rw [List.foldl_cons, filterStep_eq]
    by_cases h : survives look m = true ∧ m ∉ acc
    · rw [if_pos h]
      apply ih
      rw [List.nodup_append]
      exact ⟨hacc, List.nodup_singleton m, by
        intro x hx hx'
        rw [List.mem_singleton] at hx'
        subst hx'
        exact h.2 hx⟩
    · rw [if_neg h]; exact ih acc hacc

theorem filterFold_subset (look : String → Bool) (ms acc : List String) (x : String)
    (hx : x ∈ acc) : x ∈ ms.foldl (filterStep look) acc := by
  obtain ⟨added, heq, _⟩ := filterFold_append look ms acc
  rw [heq]; exact List.mem_append_left _ hx

theorem filterFold_mem (look : String → Bool) (ms : List String) :
    ∀ (acc : List String) (m : String), m ∈ ms → survives look m = true →
      m ∈ ms.foldl (filterStep look) acc := by
  induction ms with
  | nil => intro acc m hm; simp at hm
  | cons a ms ih =>
    intro acc m hm hs
    rw [List.foldl_cons]
    rcases List.mem_cons.1 hm with rfl | hm
    · apply filterFold_subset
      rw [filterStep_eq]
      by_cases h : survives look m = true ∧ m ∉ acc
      · rw [if_pos h]; simp
      · rw [if_neg h]
        by_contra hc
        exact h ⟨hs, hc⟩
    · exact ih _ m hm hs

theorem filterFold_fixed (look : String → Bool) (ms : List String) :
    ∀ acc : List String, (∀ m ∈ ms, survives look m = true → m ∈ acc) →
      ms.foldl (filterStep look) acc = acc := by
  induction ms with
  | nil => intro acc _; rfl
  | cons a ms ih =>
    intro acc h
    rw [List.foldl_cons, filterStep_eq]
    have ha : ¬ (survives look a = true ∧ a ∉ acc) := by
      rintro ⟨h1, h2⟩
      exact h2 (h a (List.mem_cons_self _ _) h1)
    rw [if_neg ha]
    exact ih acc fun m hm => h m (List.mem_cons_of_mem _ hm)

theorem filterCommands_take (look : String → Bool) (commands : List String) (line : String) :
    (filterCommands look commands line).take commands.length = commands := by
  obtain ⟨added, heq, _⟩ := filterFold_append look (wordRegexp.FindAllString line) commands
  unfold filterCommands
  rw [heq]; simp

theorem filterCommands_drop (look : String → Bool) (commands : List String) (line : String)
    (x : String) (hx : x ∈ (filterCommands look commands line).drop commands.length) :
    survives look x = true := by
  obtain ⟨added, heq, hall⟩ := filterFold_append look (wordRegexp.FindAllString line) commands
  unfold filterCommands at hx
  rw [heq] at hx
  simp only [List.drop_left] at hx
  exact hall x hx

theorem resolveStep_nodup (sh : String → Option String) (paths : List String) (c : String)
    (h : paths.Nodup) : (resolveStep sh paths c).Nodup := by
  unfold resolveStep
  cases hr : getCommandFullPath sh c with
  | none => exact h
  | some q =>
    simp only
    by_cases hc : contains paths q = true
    · simp [hc, h]
    · have hc' : contains paths q = false := by simpa using hc
      have hq : q ∉ paths := fun hin => hc ((contains_iff paths q).2 (Or.inr hin))
      simp only [hc', Bool.not_false, if_true]
      rw [List.nodup_append]
      exact ⟨h, List.nodup_singleton q, by
        intro x hx hx'
        rw [List.mem_singleton] at hx'
        subst hx'
        exact hq hx⟩

theorem resolveLoop_nodup (sh : String → Option String) (cmds : List String) :
    ∀ paths : List String, paths.Nodup → (resolveLoop sh cmds paths).Nodup := by
  induction cmds with
  | nil => intro paths h; exact h
  | cons c cs ih =>
    intro paths h
    exact ih _ (resolveStep_nodup sh paths c h)

theorem scriptLoop_commands (look : String → Bool) (sh : String → Option String)
    (lines : List String) :
    ∀ st : Accum, (scriptLoop look sh lines st).commands =
      (scriptTokens lines).foldl (filterStep look) st.commands := by
  induction lines with
  | nil => intro st; rfl
  | cons l ls ih =>
    intro st
    unfold scriptLoop at ih ⊢
    rw [List.foldl_cons, ih]
    simp only [scriptTokens, List.flatMap_cons, List.foldl_append]
    by_cases hskip : (TrimSpace l == "" || HasPrefix (TrimSpace l) "#") = true
    · simp [scriptLine, hskip]
    · simp [scriptLine, hskip, filterCommands]

theorem scriptLoop_paths_nodup (look : String → Bool) (sh : String → Option String)
    (lines : List String) :
    ∀ st : Accum, st.cmdFullPaths.Nodup → (scriptLoop look sh lines st).cmdFullPaths.Nodup := by
  induction lines with
  | nil => intro st h; exact h
  | cons l ls ih =>
    intro st h
    unfold scriptLoop at ih ⊢
    rw [List.foldl_cons]
    apply ih
    by_cases hskip : (TrimSpace l == "" || HasPrefix (TrimSpace l) "#") = true
    · simp [scriptLine, hskip, h]
    · simp only [scriptLine, hskip]
      exact resolveLoop_nodup sh _ _ h

theorem survives_of (look : String → Bool) (c : String) (hb : c ∉ shellBuiltins)
    (hu : allUpperSnake c = false) (hd : HasPrefix c "-" = false) (hl : look c = true) :
    survives look c = true := by
  have hc : contains shellBuiltins c = false := by
    rw [← Bool.not_eq_true, contains_iff, snake_MatchString, hu]
    simp [hb]
  simp [survives, hc, hd, hl]

/-! ## Properties stated by the specification -/

/-- C5: whatever the line, the accumulator and the search-path lookup,
`filterCommands` keeps the accumulator as a prefix of its result, and no name
it appends to it is a member of `shellBuiltins` or begins with `-`. -/
theorem filterCommands_excludes_builtins_and_flags (look : String → Bool)
    (commands : List String) (line : String) :
    (filterCommands look commands line).take commands.length = commands ∧
      ∀ x ∈ (filterCommands look commands line).drop commands.length,
        x ∉ shellBuiltins ∧ HasPrefix x "-" = false := by
  refine ⟨filterCommands_take look commands line, fun x hx => ?_⟩
  obtain ⟨h1, h2, _, _⟩ := survives_spec look x (filterCommands_drop look commands line x hx)
  exact ⟨h1, h2⟩

/-- C10: a token made only of upper-case letters and underscores is reported
as present by `contains` on every non-empty list (so on `shellBuiltins`), and
no name that `filterCommands` appends to the accumulator is such a token,
whatever the line, the accumulator and the search-path lookup. -/
theorem filterCommands_never_adds_upper_snake (look : String → Bool)
    (commands : List String) (line : String) :
    (∀ (tok : String) (slice : List String), allUpperSnake tok = true → slice ≠ [] →
        contains slice tok = true) ∧
      contains shellBuiltins "GET" = true ∧ contains shellBuiltins "PATH" = true ∧
      ∀ x ∈ (filterCommands look commands line).drop commands.length,
        allUpperSnake x = false := by
  have hgen : ∀ (tok : String) (slice : List String), allUpperSnake tok = true → slice ≠ [] →
      contains slice tok = true := by
    intro tok slice ht hs
    rw [contains_iff, snake_MatchString]
    exact Or.inl ⟨hs, ht⟩
  refine ⟨hgen, hgen _ _ (by decide) shellBuiltins_ne_nil,
    hgen _ _ (by decide) shellBuiltins_ne_nil, fun x hx => ?_⟩
  obtain ⟨_, _, _, h⟩ := survives_spec look x (filterCommands_drop look commands line x hx)
  rw [snake_MatchString] at h
  exact h

/-- C6, as amended: starting from empty accumulators, after the script loop
has processed any sequence of lines the command list and the resolved-path
list have no repeated element; a name that the tokenizer yields as a token of
some processed line, and that is resolvable, not a builtin, not dash-led and
not all upper-case, occurs exactly once in the command list, however many
lines it appears on. -/
theorem scriptLoop_deduplicates (look : String → Bool) (sh : String → Option String)
    (lines : List String) :
    (scriptLoop look sh lines ⟨[], []⟩).commands.Nodup ∧
      (scriptLoop look sh lines ⟨[], []⟩).cmdFullPaths.Nodup ∧
      ∀ c : String, c ∈ scriptTokens lines → look c = true → c ∉ shellBuiltins →
        HasPrefix c "-" = false → allUpperSnake c = false →
        (scriptLoop look sh lines ⟨[], []⟩).commands.count c = 1 := by
  have hnd : (scriptLoop look sh lines ⟨[], []⟩).commands.Nodup := by
    rw [scriptLoop_commands]
    exact filterFold_nodup look _ _ List.nodup_nil
  refine ⟨hnd, scriptLoop_paths_nodup look sh lines _ List.nodup_nil, ?_⟩
  intro c hc hl hb hd hu
  apply List.count_eq_one_of_mem hnd
  rw [scriptLoop_commands]
  exact filterFold_mem look _ _ c hc (survives_of look c hb hu hd hl)

/-- C6, on a script that names `curl` on three separate lines. -/
theorem scriptLoop_deduplicates_witness :
    (scriptLoop (fun _ => true) (fun c => some ("/usr/bin/" ++ c))
        ["curl -o a http://x", "curl -o b http://y", "# done", "curl -o c http://z"]
        ⟨[], []⟩).commands.count "curl" = 1 :=
  (scriptLoop_deduplicates (fun _ => true) (fun c => some ("/usr/bin/" ++ c))
      ["curl -o a http://x", "curl -o b http://y", "# done", "curl -o c http://z"]).2.2
    "curl" (by decide) rfl (by decide) (by decide) (by decide)

/-- C6 fails as worded: `apt-get` is resolvable, not a builtin and not all
upper-case, and stands on three separate lines, yet the tokenizer splits it
into `apt` and `-get`, so it occurs in the command list zero times. -/
theorem scriptLoop_misses_hyphenated_name :
    (fun _ : String => true) "apt-get" = true ∧ "apt-get" ∉ shellBuiltins ∧
      allUpperSnake "apt-get" = false ∧
      scriptTokens ["apt-get update", "apt-get install curl", "apt-get clean"] =
        ["apt", "-get", "update", "apt", "-get", "install", "curl", "apt", "-get", "clean"] ∧
      (scriptLoop (fun _ => true) (fun c => some ("/usr/bin/" ++ c))
        ["apt-get update", "apt-get install curl", "apt-get clean"] ⟨[], []⟩).commands =
        ["apt", "update", "install", "curl", "clean"] ∧
      (scriptLoop (fun _ => true) (fun c => some ("/usr/bin/" ++ c))
        ["apt-get update", "apt-get install curl", "apt-get clean"]
        ⟨[], []⟩).commands.count "apt-get" = 0 :=
  ⟨rfl, by decide, by decide, by decide, by decide, by decide⟩

/-- C7: under a fixed search-path lookup, applying `filterCommands` to the
same line again, with the accumulator carried over, returns the same list;
and running the script loop again over the same lines, with the accumulators
carried over, leaves the command list unchanged. -/
theorem filterCommands_idempotent (look : String → Bool) (sh : String → Option String)
    (commands : List String) (line : String) (lines : List String) (st : Accum) :
    filterCommands look (filterCommands look commands line) line =
        filterCommands look commands line ∧
      (scriptLoop look sh lines (scriptLoop look sh lines st)).commands =
        (scriptLoop look sh lines st).commands := by
  constructor
  · unfold filterCommands
    exact filterFold_fixed look _ _ fun m hm hs => filterFold_mem look _ _ m hm hs
  · rw [scriptLoop_commands, scriptLoop_commands]
    exact filterFold_fixed look _ _ fun m hm hs => filterFold_mem look _ _ m hm hs

theorem absolute_not_snake (q : String) (h : HasPrefix q "/" = true) :
    snakeCaseRegexp.MatchString q = false := by
  rw [snake_MatchString]
  unfold HasPrefix at h
  unfold allUpperSnake
  cases hq : q.data with
  | nil => simp
  | cons c cs =>
    rw [hq] at h
    have hc : c = '/' := by
      have : ("/" : String).data = ['/'] := rfl
      rw [this] at h
      simp [List.isPrefixOf] at h
      exact h.symm
    subst hc
    simp [upperChar]

theorem resolveLoop_eq_loop (sh : String → Option String)
    (habs : ∀ n q, getCommandFullPath sh n = some q → HasPrefix q "/" = true)
    (names : List String) :
    ∀ acc : List String, resolveLoop sh names acc =
      List.eraseDups.loop (names.filterMap (getCommandFullPath sh)) acc.reverse := by
  induction names with
  | nil => intro acc; simp [resolveLoop, List.eraseDups.loop]
  | cons n ns ih =>
    intro acc
    unfold resolveLoop at ih ⊢
    rw [List.foldl_cons, ih]
    unfold resolveStep
    cases hr : getCommandFullPath sh n with
    | none => simp [List.filterMap_cons, hr]
    | some q =>
      have hsn := absolute_not_snake q (habs n q hr)
      simp only [List.filterMap_cons, hr, List.eraseDups.loop]
      by_cases hq : q ∈ acc
      · have hc : contains acc q = true := (contains_iff acc q).2 (Or.inr hq)
        have he : List.elem q acc.reverse = true := by simp [hq]
        simp [hc, he, hq]
      · have hc : contains acc q = false := by
          rw [← Bool.not_eq_true, contains_iff]; simp [hsn, hq]
        have he : List.elem q acc.reverse = false := by simp [hq]
        simp [hc, he, hq]

theorem resolveLoop_mem (sh : String → Option String)
    (habs : ∀ n q, getCommandFullPath sh n = some q → HasPrefix q "/" = true)
    (names : List String) :
    ∀ (acc : List String) (q : String), q ∈ resolveLoop sh names acc ↔
      q ∈ acc ∨ ∃ n ∈ names, getCommandFullPath sh n = some q := by
  induction names with
  | nil => intro acc q; simp [resolveLoop]
  | cons n ns ih =>
    intro acc q
    unfold resolveLoop at ih ⊢
    rw [List.foldl_cons, ih]
    unfold resolveStep
    cases hr : getCommandFullPath sh n with
    | none => simp [hr]
    | some r =>
      have hsn := absolute_not_snake r (habs n r hr)
      by_cases hq : r ∈ acc
      · have hc : contains acc r = true := (contains_iff acc r).2 (Or.inr hq)
        simp only [hc, Bool.not_true, Bool.false_eq_true, if_false, List.mem_cons,
          exists_eq_or_imp, hr, Option.some.injEq]
        constructor
        · rintro (h | h)
          · exact Or.inl h
          · exact Or.inr (Or.inr h)
        · rintro (h | h | h)
          · exact Or.inl h
          · exact Or.inl (h ▸ hq)
          · exact Or.inr h
      · have hc : contains acc r = false := by
          rw [← Bool.not_eq_true, contains_iff]; simp [hsn, hq]
        have hqr : q ∈ acc ++ [r] ↔ q ∈ acc ∨ r = q := by
          rw [List.mem_append, List.mem_singleton]
          exact or_congr Iff.rfl eq_comm
        simp only [hc, Bool.not_false, if_true, hqr, List.mem_cons, exists_eq_or_imp, hr,
          Option.some.injEq]
        constructor
        · rintro ((h | h) | h)
          · exact Or.inl h
          · exact Or.inr (Or.inl h)
          · exact Or.inr (Or.inr h)
        · rintro (h | h | h)
          · exact Or.inl (Or.inl h)
          · exact Or.inl (Or.inr h)
          · exact Or.inr h

/-- C8: when every resolved path is absolute, the resolve loop started from
an empty path list returns the paths of the names that resolve, each once, in
order of first occurrence: a name that fails is skipped, the names after it
are still processed, and nothing is recorded for it. -/
theorem resolveLoop_skips_failures (sh : String → Option String) (names : List String)
    (habs : ∀ n q, getCommandFullPath sh n = some q → HasPrefix q "/" = true) :
    resolveLoop sh names [] = (names.filterMap (getCommandFullPath sh)).eraseDups ∧
      (resolveLoop sh names []).Nodup ∧
      ∀ q, q ∈ resolveLoop sh names [] ↔ ∃ n ∈ names, getCommandFullPath sh n = some q := by
  refine ⟨?_, resolveLoop_nodup sh names [] List.nodup_nil, fun q => ?_⟩
  · rw [resolveLoop_eq_loop sh habs names []]; rfl
  · rw [resolveLoop_mem sh habs names [] q]; simp

theorem whichCurlSh_absolute :
    ∀ n q, getCommandFullPath whichCurlSh n = some q → HasPrefix q "/" = true := by
  intro n q h
  unfold getCommandFullPath whichCurlSh at h
  split_ifs at h
  · simp only [Option.map_some', Option.some.injEq] at h
    subst h; decide
  · simp only [Option.map_some', Option.some.injEq] at h
    subst h; decide
  · simp at h

/-- C8, on a system where `myapp` does not resolve: the loop over
`sh, curl, myapp, sh, curl` returns the paths of `sh` and `curl`, in that
order. -/
theorem resolveLoop_skips_failures_witness :
    (∀ n q, getCommandFullPath whichCurlSh n = some q → HasPrefix q "/" = true) ∧
      resolveLoop whichCurlSh ["sh", "curl", "myapp", "sh", "curl"] [] =
        ["/bin/sh", "/usr/bin/curl"] := by
  refine ⟨whichCurlSh_absolute, ?_⟩
  rw [(resolveLoop_skips_failures whichCurlSh ["sh", "curl", "myapp", "sh", "curl"]
    whichCurlSh_absolute).1]
  decide

theorem lddFindLib_append (ms : List String) :
    ∀ libs : List String, ms.foldl (fun libs m => libs ++ [m]) libs = libs ++ ms := by
  induction ms with
  | nil => intro libs; simp
  | cons m ms ih => intro libs; rw [List.foldl_cons, ih]; simp

theorem lddFindLibLoop_error_iff {ε : Type} (ldd : String → Except ε String)
    (paths : List String) :
    ∀ libs : List String, (∃ e, lddFindLibLoop ldd paths libs = .error e) ↔
      ∃ q ∈ paths, ∃ e, ldd q = .error e := by
  induction paths with
  | nil => intro libs; simp [lddFindLibLoop]
  | cons a rest ih =>
    intro libs
    unfold lddFindLibLoop
    cases ha : ldd a with
    | error e => simp [ha]
    | ok out => simp [ha, ih]

theorem lddFindLibLoop_ok_iff {ε : Type} (ldd : String → Except ε String)
    (paths : List String) :
    ∀ libs : List String, (∃ r, lddFindLibLoop ldd paths libs = .ok r) ↔
      ∀ q ∈ paths, ∃ out, ldd q = .ok out := by
  induction paths with
  | nil => intro libs; simp [lddFindLibLoop]
  | cons a rest ih =>
    intro libs
    unfold lddFindLibLoop
    cases ha : ldd a with
    | error e => simp [ha]
    | ok out => simp [ha, ih]

/-- C9: `lddFindLib` returns an error exactly when `ldd` fails for some path
of its input, and then no list; it returns a list and no error exactly when
`ldd` fails for none; for the empty input it returns the empty list. -/
theorem lddFindLib_error_iff {ε : Type} (ldd : String → Except ε String)
    (paths : List String) :
    ((∃ e, lddFindLib ldd paths = .error e) ↔ ∃ q ∈ paths, ∃ e, ldd q = .error e) ∧
      ((∃ libs, lddFindLib ldd paths = .ok libs) ↔ ∀ q ∈ paths, ∃ out, ldd q = .ok out) ∧
      lddFindLib ldd [] = .ok [] :=
  ⟨lddFindLibLoop_error_iff ldd paths [], lddFindLibLoop_ok_iff ldd paths [], rfl⟩

theorem lddFindLibLoop_ok {ε : Type} (outs : String → String) (paths : List String) :
    ∀ libs : List String,
      lddFindLibLoop (fun q => (Except.ok (outs q) : Except ε String)) paths libs =
        .ok (libs ++ paths.flatMap fun q => libRegexp.FindAllString (TrimSpace (outs q))) := by
  induction paths with
  | nil => intro libs; simp [lddFindLibLoop]
  | cons a rest ih =>
    intro libs
    simp only [lddFindLibLoop, lddFindLib_append, ih, List.flatMap_cons, List.append_assoc]

/-- C2, as amended: when `ldd` fails for no path, `lddFindLib` returns the
matches found in each binary's output, concatenated in input order, with
nothing removed: a library occurs in the result as many times as it is
matched over all the outputs. -/
theorem lddFindLib_concatenates {ε : Type} (outs : String → String) (paths : List String) :
    lddFindLib (fun q => (Except.ok (outs q) : Except ε String)) paths =
      .ok (paths.flatMap fun q => libRegexp.FindAllString (TrimSpace (outs q))) := by
  unfold lddFindLib
  rw [lddFindLibLoop_ok]
  simp

/-- C2 fails: two commands that link against the same library give a result
that holds that library twice. -/
theorem lddFindLib_repeats_shared_library :
    lddFindLib lddLibc ["/usr/bin/curl", "/usr/bin/wget"] =
        .ok ["/x86_64-linux-gnu/libc.so.6", "/x86_64-linux-gnu/libc.so.6"] ∧
      ¬ ["/x86_64-linux-gnu/libc.so.6", "/x86_64-linux-gnu/libc.so.6"].Nodup :=
  ⟨by rfl, by decide⟩

theorem libRegexp_needs_word_before (prev : Option Char) (s : List Char)
    (h : (match prev with | some c => isWordChar c | none => false) = false) :
    libRegexp.matchLen prev s = none := by
  cases s with
  | nil => simp [Regex.matchLen, libRegexp, Regex.ends, atWordBoundary, h]
  | cons c cs =>
    by_cases hc : c = '/'
    · subst hc
      have hw : isWordChar '/' = false := by decide
      simp [Regex.matchLen, libRegexp, Regex.ends, atWordBoundary, h, hw]
    · by_cases hb : atWordBoundary prev (c :: cs) = true
      · simp [Regex.matchLen, libRegexp, Regex.ends, hb, hc]
      · simp [Regex.matchLen, libRegexp, Regex.ends, hb]

/-- C1 at a failing input: for the output line
`libc.so.6 => /lib/x86_64-linux-gnu/libc.so.6 (0x00007f)` the result is
`/x86_64-linux-gnu/libc.so.6`; the path `/lib/x86_64-linux-gnu/libc.so.6` of
the output is not returned. In every text, the pattern has no match that
begins at the start of the text or right after a rune that is not a word
character, such as a blank. -/
theorem lddFindLib_truncates_path (s : List Char) :
    lddFindLib (fun _ => (Except.ok "libc.so.6 => /lib/x86_64-linux-gnu/libc.so.6 (0x00007f)" :
        Except Unit String)) ["/usr/bin/curl"] = .ok ["/x86_64-linux-gnu/libc.so.6"] ∧
      "/lib/x86_64-linux-gnu/libc.so.6" ∉ ["/x86_64-linux-gnu/libc.so.6"] ∧
      libRegexp.matchLen none s = none ∧
      ∀ c, isWordChar c = false → libRegexp.matchLen (some c) s = none :=
  ⟨by rfl, by decide, libRegexp_needs_word_before none s rfl,
    fun c hc => libRegexp_needs_word_before (some c) s hc⟩

theorem sliceFrom_none_iff (s : String) :
    sliceFrom s (((bytes s).length : Int) - 3) = none ↔ (bytes s).length < 3 := by
  unfold sliceFrom
  split_ifs with h
  · simp only [reduceCtorEq, false_iff]; omega
  · simp only [true_iff]; omega

theorem bytes_dot_sh_length : (bytes ".sh").length = 3 := by decide

theorem isShellScript_true_iff (s : String) :
    isShellScript s = some true ↔ bytes ".sh" <:+ bytes s := by
  unfold isShellScript sliceFrom
  rw [List.suffix_iff_eq_drop, bytes_dot_sh_length]
  split_ifs with h
  · have hn : (((bytes s).length : Int) - 3).toNat = (bytes s).length - 3 := by omega
    simp only [Option.map_some', Option.some.injEq, beq_iff_eq, hn]
    exact eq_comm
  · simp only [Option.map_none', reduceCtorEq, false_iff]
    intro hd
    have hl := congrArg List.length hd
    rw [bytes_dot_sh_length, List.length_drop] at hl
    omega

/-- C3 at a failing input: classification panics exactly on the tokens
shorter than three bytes, among them the token `sh`; on every other token
`isBinary` is the negation of `isShellScript`, which is true exactly when the
token ends with `.sh`. -/
theorem classification_panics_on_short_token (entrypoint : String) :
    (isShellScript entrypoint = none ↔ (bytes entrypoint).length < 3) ∧
      (isBinary entrypoint = none ↔ (bytes entrypoint).length < 3) ∧
      isBinary entrypoint = (isShellScript entrypoint).map (!·) ∧
      (isShellScript entrypoint = some true ↔ bytes ".sh" <:+ bytes entrypoint) ∧
      isShellScript "sh" = none ∧ isBinary "sh" = none ∧
      isShellScript "nginx" = some false ∧ isBinary "nginx" = some true ∧
      isShellScript "/docker-entrypoint.sh" = some true ∧
      isBinary "/docker-entrypoint.sh" = some false := by
  refine ⟨?_, ?_, ?_, isShellScript_true_iff entrypoint,
    by decide, by decide, by decide, by decide, by decide, by decide⟩
  · unfold isShellScript
    rw [Option.map_eq_none', sliceFrom_none_iff]
  · unfold isBinary
    rw [Option.map_eq_none', sliceFrom_none_iff]
  · unfold isBinary isShellScript
    cases sliceFrom entrypoint (((bytes entrypoint).length : Int) - 3) with
    | none => rfl
    | some x => rfl

theorem wordRegexp_dash_needs_word_before (prev : Option Char) (s : List Char)
    (h : (match prev with | some c => isWordChar c | none => false) = false) :
    wordRegexp.matchLen prev ('-' :: s) = none := by
  have hw : isWordChar '-' = false := by decide
  simp [Regex.matchLen, wordRegexp, Regex.ends, atWordBoundary, h, hw]

/-- C4 at a failing input: on the line `ls --code` the tokenizer matches `ls`
and `code` (the flag without its dashes), and with both names resolvable
`filterCommands` returns `[ls, code]` from an empty accumulator. In every
line, the pattern has no match that begins at a dash standing at the start of
the line or right after a rune that is not a word character, such as a
blank. -/
theorem filterCommands_keeps_flag_name (s : List Char) :
    wordRegexp.FindAllString "ls --code" = ["ls", "code"] ∧
      filterCommands (fun _ => true) [] "ls --code" = ["ls", "code"] ∧
      wordRegexp.matchLen none ('-' :: s) = none ∧
      ∀ c, isWordChar c = false → wordRegexp.matchLen (some c) ('-' :: s) = none :=
  ⟨by decide, by decide, wordRegexp_dash_needs_word_before none s rfl,
    fun c hc => wordRegexp_dash_needs_word_before (some c) s hc⟩

end DockerfileOptimizer
